import Mathlib

/-!
Shallow embedding of the OmniSharp launch-target classifier and process
launcher from `src/omnisharp/launcher.ts`, together with theorems checking
the natural-language specification against it.

Modelling conventions:
* `vscode.Uri` is modelled by its `scheme` and `fsPath` components.
* Node's `path.dirname` and `path.basename` are modelled by their POSIX
  variants, translated from Node's index-scanning algorithms.
* `String.prototype.localeCompare` is modelled as code-point (lexicographic)
  string comparison, the locale-independent reading used by the spec.
* `vscode.workspace.asRelativePath` and `vscode.workspace.getWorkspaceFolder`
  are external collaborators and appear as opaque function parameters.
* JavaScript regular expressions are translated to executable character-list
  functions; an unflagged dot matches every character except a line
  terminator, and case-insensitive matching compares lower-cased characters.
* `spawn` is modelled by a `SpawnCall` record capturing the command, the
  argument vector and the options the source passes.
-/

/-- The two components of a `vscode.Uri` that the classifier reads. -/
structure Uri where
  scheme : String
  fsPath : String
deriving DecidableEq, Repr

/-- A workspace folder: its stable index and its root path (`folder.uri.fsPath`). -/
structure WorkspaceFolder where
  index : Nat
  fsPath : String
deriving DecidableEq, Repr

/-- The `LaunchTargetKind` enumeration from the source. -/
inductive LaunchTargetKind where
  | Solution
  | Project
  | ProjectJson
  | Folder
  | Csx
  | Cake
  | LiveShare
deriving DecidableEq, Repr

/-- The `LaunchTarget` value type from the source. -/
structure LaunchTarget where
  label : String
  description : String
  directory : String
  target : String
  workspaceKind : LaunchTargetKind
deriving DecidableEq, Repr

/-- The live-share sentinel target `vslsTarget`. -/
def vslsTarget : LaunchTarget :=
  { label := "VSLS"
    description := "Visual Studio Live Share"
    directory := ""
    target := ""
    workspaceKind := .LiveShare }

/-- The live-share scheme constant `vsls`. -/
def vsls : String := "vsls"

/-- The `disabledSchemes` set (a one-element set in the source). -/
def disabledSchemes : List String := [vsls]

/-- Lower-cased character list of a string; case-insensitive regex matching
is modelled by comparing lower-cased characters. -/
def lcStr (s : String) : List Char := s.data.map Char.toLower

/-- Whether a character is matched by an unflagged JavaScript regex dot:
every character except the four line terminators. -/
def dotCharB (c : Char) : Bool :=
  !(c == '\n' || c == '\r' || c == '\u2028' || c == '\u2029')

/-- Node `path.posix.dirname`, translated from its backwards index scan:
skip trailing slashes, then find the slash preceding the last path
component; special cases for root and no-slash inputs. -/
def dirname (p : String) : String :=
  match p.data with
  | [] => "."
  | c :: rest =>
    let r2 := (rest.reverse.dropWhile (fun x => x == '/')).dropWhile (fun x => x != '/')
    if r2.isEmpty then (if c == '/' then "/" else ".")
    else if c == '/' && r2.length == 1 then "//"
    else ⟨(c :: rest).take r2.length⟩

/-- Node `path.posix.basename` (no extension argument): strip trailing
slashes, then take everything after the last remaining slash. -/
def basename (p : String) : String :=
  ⟨((p.data.reverse.dropWhile (fun x => x == '/')).takeWhile (fun x => x != '/')).reverse⟩

/-- Test of the case-insensitive regex matching solution files, anchored at
the end: the path ends with `.sln` or `.slnf`. -/
def isSolution (r : Uri) : Bool :=
  decide (".sln".data <:+ lcStr r.fsPath) || decide (".slnf".data <:+ lcStr r.fsPath)

/-- Test of the case-insensitive regex for `project.json` files, anchored at
the end; the pattern starts with an escaped `p` and contains a regex dot
matching any non-line-terminator character, so a path matches when it ends
with `project`, one arbitrary character, then `json`. -/
def isProjectJson (r : Uri) : Bool :=
  let m := lcStr r.fsPath
  decide ("json".data <:+ m) && decide (12 ≤ m.length)
    && decide ("project".data <:+ m.take (m.length - 5))
    && dotCharB (m.getD (m.length - 5) 'x')

/-- Test of the case-insensitive regex for `.csproj` files. -/
def isCSharpProject (r : Uri) : Bool :=
  decide (".csproj".data <:+ lcStr r.fsPath)

/-- Test of the case-insensitive regex for `.csx` files. -/
def isCsx (r : Uri) : Bool :=
  decide (".csx".data <:+ lcStr r.fsPath)

/-- Test of the case-insensitive regex for `.cake` files. -/
def isCake (r : Uri) : Bool :=
  decide (".cake".data <:+ lcStr r.fsPath)

/-- Test of the case-insensitive regex for `.cs` files. -/
def isCs (r : Uri) : Bool :=
  decide (".cs".data <:+ lcStr r.fsPath)

/-- The solution target record pushed for a `.sln` or `.slnf` resource. -/
def solutionTarget (relPath : String → String) (r : Uri) : LaunchTarget :=
  { label := basename r.fsPath
    description := relPath (dirname r.fsPath)
    target := r.fsPath
    directory := dirname r.fsPath
    workspaceKind := .Solution }

/-- The target record pushed for a `project.json` resource. -/
def projectJsonTarget (relPath : String → String) (r : Uri) : LaunchTarget :=
  { label := basename r.fsPath
    description := relPath (dirname r.fsPath)
    target := dirname r.fsPath
    directory := dirname r.fsPath
    workspaceKind := .ProjectJson }

/-- The target record pushed for a `.csproj` resource. -/
def projectTarget (relPath : String → String) (r : Uri) : LaunchTarget :=
  { label := basename r.fsPath
    description := relPath (dirname r.fsPath)
    target := dirname r.fsPath
    directory := dirname r.fsPath
    workspaceKind := .Project }

/-- The synthetic folder target pushed by the root-folder inclusion rule. -/
def rootFolderTarget (folderPath : String) : LaunchTarget :=
  { label := basename folderPath
    description := "All contained projects"
    target := folderPath
    directory := folderPath
    workspaceKind := .Folder }

/-- The folder-level CSX target. -/
def csxTarget (folderPath : String) : LaunchTarget :=
  { label := "CSX"
    description := basename folderPath
    target := folderPath
    directory := folderPath
    workspaceKind := .Csx }

/-- The folder-level Cake target. -/
def cakeTarget (folderPath : String) : LaunchTarget :=
  { label := "Cake"
    description := basename folderPath
    target := folderPath
    directory := folderPath
    workspaceKind := .Cake }

/-- The loose-source fallback folder target (empty description). -/
def looseCsTarget (folderPath : String) : LaunchTarget :=
  { label := basename folderPath
    description := ""
    target := folderPath
    directory := folderPath
    workspaceKind := .Folder }

/-- The five target lists accumulated across the whole classification run
(the source declares them outside the per-folder loop). -/
structure Buckets where
  solutionTargets : List LaunchTarget
  projectJsonTargets : List LaunchTarget
  projectRootTargets : List LaunchTarget
  projectTargets : List LaunchTarget
  otherTargets : List LaunchTarget
deriving DecidableEq, Repr

/-- The four booleans declared inside the per-folder loop (reset per folder). -/
structure ScanFlags where
  hasProjectJsonAtRoot : Bool
  hasCSX : Bool
  hasCake : Bool
  hasCs : Bool
deriving DecidableEq, Repr

/-- The empty bucket state. -/
def emptyBuckets : Buckets := ⟨[], [], [], [], []⟩

/-- The per-folder initial flags. -/
def initialFlags : ScanFlags := ⟨false, false, false, false⟩

/-- One iteration of the inner `resources.forEach` loop: classify a single
resource down the if/else-if chain, pushing a target or updating flags. -/
def scanResource (relPath : String → String) (folderPath : String)
    (s : Buckets × ScanFlags) (r : Uri) : Buckets × ScanFlags :=
  let (b, f) := s
  if isSolution r then
    ({ b with solutionTargets := b.solutionTargets ++ [solutionTarget relPath r] }, f)
  else if isProjectJson r then
    ({ b with projectJsonTargets := b.projectJsonTargets ++ [projectJsonTarget relPath r] },
     { f with hasProjectJsonAtRoot :=
        f.hasProjectJsonAtRoot || (dirname r.fsPath == folderPath) })
  else if isCSharpProject r then
    ({ b with projectTargets := b.projectTargets ++ [projectTarget relPath r] }, f)
  else
    (b, { f with
      hasCSX := f.hasCSX || isCsx r
      hasCake := f.hasCake || isCake r
      hasCs := f.hasCs || isCs r })

/-- One iteration of the outer `workspaceFolderToUriMap.forEach` loop:
scan the folder's resources, then conditionally push the synthetic
root-folder, CSX, Cake and loose-source targets.  The existence booleans
are read off the lengths of the accumulated lists, exactly as the source
computes them. -/
def processFolder (relPath : String → String) (workspaceFolders : List WorkspaceFolder)
    (b0 : Buckets) (entry : Nat × List Uri) : Buckets :=
  let folderPath := (workspaceFolders.getD entry.1 ⟨0, ""⟩).fsPath
  let s := entry.2.foldl (scanResource relPath folderPath) (b0, initialFlags)
  let b := s.1
  let f := s.2
  let hasCsProjFiles := decide (0 < b.projectTargets.length)
  let hasSlnFile := decide (0 < b.solutionTargets.length)
  let hasProjectJson := decide (0 < b.projectJsonTargets.length)
  let b :=
    if (hasCsProjFiles && !hasSlnFile) || (hasProjectJson && !f.hasProjectJsonAtRoot) then
      { b with projectRootTargets := b.projectRootTargets ++ [rootFolderTarget folderPath] }
    else b
  let b :=
    if f.hasCSX then
      { b with otherTargets := b.otherTargets ++ [csxTarget folderPath] }
    else b
  let b :=
    if f.hasCake then
      { b with otherTargets := b.otherTargets ++ [cakeTarget folderPath] }
    else b
  let b :=
    if f.hasCs && !hasSlnFile && !hasCsProjFiles && !hasProjectJson && !f.hasProjectJsonAtRoot then
      { b with otherTargets := b.otherTargets ++ [looseCsTarget folderPath] }
    else b
  b

/-- The bucket state after the whole folder loop. -/
def classifierBuckets (relPath : String → String)
    (workspaceFolders : List WorkspaceFolder)
    (folderMap : List (Nat × List Uri)) : Buckets :=
  folderMap.foldl (processFolder relPath workspaceFolders) emptyBuckets

/-- The comparator `(a, b) => a.directory.localeCompare(b.directory)`,
modelled as code-point comparison of the directories. -/
def dirLE (a b : LaunchTarget) : Prop := a.directory ≤ b.directory

instance : DecidableRel dirLE :=
  fun a b => inferInstanceAs (Decidable (a.directory ≤ b.directory))

instance : IsTotal LaunchTarget dirLE :=
  ⟨fun a b => le_total a.directory b.directory⟩

instance : IsTrans LaunchTarget dirLE :=
  ⟨fun _ _ _ h h2 => le_trans h h2⟩

/-- The `.sort` call on a bucket (JavaScript sort is stable; a stable
insertion sort realises it for this total comparator). -/
def sortByDirectory (l : List LaunchTarget) : List LaunchTarget :=
  List.insertionSort dirLE l

/-- The concatenation `allTargets` built after the folder loop, before
truncation. -/
def allLaunchTargets (relPath : String → String)
    (workspaceFolders : List WorkspaceFolder)
    (folderMap : List (Nat × List Uri)) : List LaunchTarget :=
  let b := classifierBuckets relPath workspaceFolders folderMap
  b.otherTargets ++ sortByDirectory b.solutionTargets
    ++ sortByDirectory b.projectRootTargets
    ++ sortByDirectory b.projectJsonTargets
    ++ sortByDirectory b.projectTargets

/-- `resourcesAndFolderMapToLaunchTargets` from the source.  The first
`resources` parameter is unused there (it is shadowed inside the folder
loop); it is kept for signature fidelity. -/
def resourcesAndFolderMapToLaunchTargets (relPath : String → String)
    (resources : List Uri) (workspaceFolders : List WorkspaceFolder)
    (folderMap : List (Nat × List Uri)) (maxProjectResults : Int) : List LaunchTarget :=
  let _ := resources
  let allTargets := allLaunchTargets relPath workspaceFolders folderMap
  if 0 < maxProjectResults then allTargets.take maxProjectResults.toNat else allTargets

/-- Appending a resource to the bucket of key `k` in the insertion-ordered
map (a JavaScript `Map` iterates in key-insertion order). -/
def addToUriMap (m : List (Nat × List Uri)) (k : Nat) (r : Uri) : List (Nat × List Uri) :=
  match m with
  | [] => [(k, [r])]
  | (j, rs) :: rest =>
    if j = k then (j, rs ++ [r]) :: rest else (j, rs) :: addToUriMap rest k r

/-- The `workspaceFolderToUriMap` construction loop: bucket each local
resource by the index of its owning workspace folder, dropping resources
outside every folder. -/
def buildUriMap (getFolder : Uri → Option WorkspaceFolder)
    (resources : List Uri) : List (Nat × List Uri) :=
  resources.foldl
    (fun m r =>
      match getFolder r with
      | some f => addToUriMap m f.index r
      | none => m) []

/-- `resourcesToLaunchTargets` from the source: empty-input early return,
live-share sentinel early return, then the folder-map classification. -/
def resourcesToLaunchTargets (getFolder : Uri → Option WorkspaceFolder)
    (relPath : String → String) (resources : List Uri)
    (workspaceFolders : List WorkspaceFolder) (maxProjectResults : Int) : List LaunchTarget :=
  if resources.length = 0 then []
  else
    let localResources := resources.filter (fun r => !disabledSchemes.contains r.scheme)
    if localResources.length = 0 then [vslsTarget]
    else
      resourcesAndFolderMapToLaunchTargets relPath resources workspaceFolders
        (buildUriMap getFolder localResources) maxProjectResults

/-- The record a host-executable resolver returns (`getHostExecutableInfo`). -/
structure HostExecutableInfo where
  path : String
  version : String
  env : List (String × String)
deriving DecidableEq, Repr

/-- A `spawn` invocation: the command, the argument vector and the spawn
options the source passes. -/
structure SpawnCall where
  command : String
  args : List String
  cwd : String
  env : Option (List (String × String)) := none
  detached : Bool := false
  windowsVerbatimArguments : Bool := false
deriving DecidableEq, Repr

/-- `IntermediateLaunchResult` from the source: the spawned process (here
the spawn invocation) plus launch metadata. -/
structure IntermediateLaunchResult where
  process : SpawnCall
  command : String
  hostIsMono : Bool
  hostVersion : Option String := none
  hostPath : Option String := none
deriving DecidableEq, Repr

/-- `launchNixMono` from the source: builds the mono argument vector by
successive `unshift` calls and spawns `mono`. -/
def launchNixMono (launchPath : String) (cwd : String) (args : List String)
    (environment : List (String × String)) (useDebugger : Bool) : SpawnCall :=
  let argsCopy := args
  let argsCopy := launchPath :: argsCopy
  let argsCopy := "--assembly-loader=strict" :: argsCopy
  let argsCopy :=
    if useDebugger then
      "--debugger-agent=transport=dt_socket,server=y,address=127.0.0.1:55555" ::
        ("--debug" :: argsCopy)
    else argsCopy
  { command := "mono", args := argsCopy, cwd := cwd, env := some environment }

/-- `launchNix` from the source, after the mono resolver has produced
`monoInfo`. -/
def launchNix (launchPath : String) (cwd : String) (args : List String)
    (waitForDebugger : Bool) (monoInfo : HostExecutableInfo) : IntermediateLaunchResult :=
  { process := launchNixMono launchPath cwd args monoInfo.env waitForDebugger
    command := launchPath
    hostIsMono := true
    hostVersion := some monoInfo.version
    hostPath := some monoInfo.path }

/-- Prefix match of the tail regex fragment matching any run of dot
characters followed by one non-quote character. -/
def escCore : List Char → Bool
  | [] => false
  | c :: t => (c != '"') || (dotCharB c && escCore t)

/-- Prefix match of the regex fragment matching any run of dot characters,
a space, any run of dot characters, then one non-quote character. -/
def escAfterFirst : List Char → Bool
  | [] => false
  | c :: t => (c == ' ' && escCore t) || (dotCharB c && escAfterFirst t)

/-- The `hasSpaceWithoutQuotes` regex test from `launchWindows`: a first
character other than a double quote, then somewhere a space followed later
by a non-quote character. -/
def hasSpaceWithoutQuotes (arg : String) : Bool :=
  match arg.data with
  | [] => false
  | c :: t => (c != '"') && escAfterFirst t

/-- JavaScript `arg.replace with a plain-string pattern`: only the first
occurrence of the ampersand is replaced by caret-ampersand. -/
def replaceFirstAmpChars : List Char → List Char
  | [] => []
  | c :: t => if c = '&' then '^' :: '&' :: t else c :: replaceFirstAmpChars t

/-- `escapeIfNeeded` from `launchWindows`. -/
def escapeIfNeeded (arg : String) : String :=
  if hasSpaceWithoutQuotes arg then "\"" ++ arg ++ "\""
  else ⟨replaceFirstAmpChars arg.data⟩

/-- `launchWindows` from the source: quote the launch path, escape every
argument, join everything into one `cmd /s /c` shell line and spawn `cmd`
with verbatim-argument semantics. -/
def launchWindows (launchPath : String) (cwd : String) (args : List String) :
    IntermediateLaunchResult :=
  let argsCopy := ("\"" ++ launchPath ++ "\"") :: args
  let joined :=
    String.intercalate " "
      ["/s", "/c", "\"" ++ String.intercalate " " (argsCopy.map escapeIfNeeded) ++ "\""]
  { process :=
      { command := "cmd", args := [joined], cwd := cwd, windowsVerbatimArguments := true }
    command := launchPath
    hostIsMono := false }

/-- The case-sensitive `endsWith` test on the launch path, on the
character sequence as the JavaScript string method checks it. -/
def endsWithDll (s : String) : Bool := decide (".dll".data <:+ s.data)

/-- `launchDotnet` from the source, after the dotnet resolver has produced
`dotnetInfo`: a non-`.dll` launch path is the command itself; a `.dll`
launch path is run through the platform's `dotnet` host with the assembly
unshifted as first argument. -/
def launchDotnet (launchPath : String) (cwd : String) (args : List String)
    (isWindows : Bool) (dotnetInfo : HostExecutableInfo) : IntermediateLaunchResult :=
  let p :=
    if !(endsWithDll launchPath) then (launchPath, args)
    else ((if isWindows then "dotnet.exe" else "dotnet"), launchPath :: args)
  { process := { command := p.1, args := p.2, cwd := cwd, env := some dotnetInfo.env }
    command := launchPath
    hostIsMono := false
    hostVersion := some dotnetInfo.version
    hostPath := some dotnetInfo.path }

/-- A lifecycle event emitted by the spawned child process.  The source
subscribes handlers only for the error and spawn events; every other
event kind is collapsed into `other`. -/
inductive ProcEvent where
  | spawned
  | errored (msg : String)
  | other (tag : String)
deriving DecidableEq, Repr

/-- Whether an event triggers one of the two registered handlers. -/
def relevantEvent : ProcEvent → Bool
  | .spawned => true
  | .errored _ => true
  | .other _ => false

/-- How `launchOmniSharp` settles: the inner `launch` either rejects (its
failure is forwarded through the catch handler) or yields a result whose
process then emits `events` in order; the promise settles on the first
event with a registered handler, resolving on spawn and rejecting on
error.  `none` means the promise never settles. -/
def launchOmniSharp (launchResult : Except String IntermediateLaunchResult)
    (events : List ProcEvent) : Option (Except String IntermediateLaunchResult) :=
  match launchResult with
  | .error reason => some (.error reason)
  | .ok result =>
    match events.find? relevantEvent with
    | some .spawned => some (.ok result)
    | some (.errored msg) => some (.error msg)
    | some (.other _) => none
    | none => none

/-- Unfolding of `isSolution` into its two suffix disjuncts. -/
theorem isSolution_eq (r : Uri) :
    isSolution r = true ↔
      ".sln".data <:+ lcStr r.fsPath ∨ ".slnf".data <:+ lcStr r.fsPath := by
  simp [isSolution]

/-- A `project.json` match forces the lower-cased path to end in `json`. -/
theorem isProjectJson_suffix {r : Uri} (h : isProjectJson r = true) :
    "json".data <:+ lcStr r.fsPath := by
  simp only [isProjectJson, Bool.and_eq_true, decide_eq_true_eq] at h
  exact h.1.1.1

/-- Unfolding of `isCSharpProject`. -/
theorem isCSharpProject_eq (r : Uri) :
    isCSharpProject r = true ↔ ".csproj".data <:+ lcStr r.fsPath := by
  simp [isCSharpProject]

/-- Unfolding of `isCsx`. -/
theorem isCsx_eq (r : Uri) : isCsx r = true ↔ ".csx".data <:+ lcStr r.fsPath := by
  simp [isCsx]

/-- Unfolding of `isCake`. -/
theorem isCake_eq (r : Uri) : isCake r = true ↔ ".cake".data <:+ lcStr r.fsPath := by
  simp [isCake]

/-- Unfolding of `isCs`. -/
theorem isCs_eq (r : Uri) : isCs r = true ↔ ".cs".data <:+ lcStr r.fsPath := by
  simp [isCs]

/-- Two suffixes of one list cannot both hold when neither extends the
other. -/
theorem suffixes_clash {m a b : List Char} (ha : a <:+ m) (hb : b <:+ m)
    (h1 : a.length ≤ b.length → ¬ a <:+ b) (h2 : b.length ≤ a.length → ¬ b <:+ a) :
    False := by
  rcases le_total a.length b.length with hle | hle
  · exact h1 hle (List.suffix_of_suffix_length_le ha hb hle)
  · exact h2 hle (List.suffix_of_suffix_length_le hb ha hle)

/-- A solution path never also matches `project.json`. -/
theorem sol_not_projectJson {r : Uri} (h : isSolution r = true) :
    isProjectJson r = false := by
  cases hpj : isProjectJson r
  · rfl
  · rcases (isSolution_eq r).mp h with hs | hs <;>
      exact absurd (suffixes_clash hs (isProjectJson_suffix hpj) (by decide) (by decide))
        not_false

/-- A solution path never also matches `.csproj`. -/
theorem sol_not_csproj {r : Uri} (h : isSolution r = true) :
    isCSharpProject r = false := by
  cases hc : isCSharpProject r
  · rfl
  · rcases (isSolution_eq r).mp h with hs | hs <;>
      exact absurd (suffixes_clash hs ((isCSharpProject_eq r).mp hc) (by decide) (by decide))
        not_false

/-- A solution path never also matches `.csx`. -/
theorem sol_not_csx {r : Uri} (h : isSolution r = true) : isCsx r = false := by
  cases hc : isCsx r
  · rfl
  · rcases (isSolution_eq r).mp h with hs | hs <;>
      exact absurd (suffixes_clash hs ((isCsx_eq r).mp hc) (by decide) (by decide)) not_false

/-- A solution path never also matches `.cake`. -/
theorem sol_not_cake {r : Uri} (h : isSolution r = true) : isCake r = false := by
  cases hc : isCake r
  · rfl
  · rcases (isSolution_eq r).mp h with hs | hs <;>
      exact absurd (suffixes_clash hs ((isCake_eq r).mp hc) (by decide) (by decide)) not_false

/-- A solution path never also matches `.cs`. -/
theorem sol_not_cs {r : Uri} (h : isSolution r = true) : isCs r = false := by
  cases hc : isCs r
  · rfl
  · rcases (isSolution_eq r).mp h with hs | hs <;>
      exact absurd (suffixes_clash hs ((isCs_eq r).mp hc) (by decide) (by decide)) not_false

/-- A `project.json` path never also matches `.csproj`. -/
theorem projectJson_not_csproj {r : Uri} (h : isProjectJson r = true) :
    isCSharpProject r = false := by
  cases hc : isCSharpProject r
  · rfl
  · exact absurd (suffixes_clash (isProjectJson_suffix h) ((isCSharpProject_eq r).mp hc)
      (by decide) (by decide)) not_false

/-- A `project.json` path never also matches `.csx`. -/
theorem projectJson_not_csx {r : Uri} (h : isProjectJson r = true) : isCsx r = false := by
  cases hc : isCsx r
  · rfl
  · exact absurd (suffixes_clash (isProjectJson_suffix h) ((isCsx_eq r).mp hc)
      (by decide) (by decide)) not_false

/-- A `project.json` path never also matches `.cake`. -/
theorem projectJson_not_cake {r : Uri} (h : isProjectJson r = true) : isCake r = false := by
  cases hc : isCake r
  · rfl
  · exact absurd (suffixes_clash (isProjectJson_suffix h) ((isCake_eq r).mp hc)
      (by decide) (by decide)) not_false

/-- A `project.json` path never also matches `.cs`. -/
theorem projectJson_not_cs {r : Uri} (h : isProjectJson r = true) : isCs r = false := by
  cases hc : isCs r
  · rfl
  · exact absurd (suffixes_clash (isProjectJson_suffix h) ((isCs_eq r).mp hc)
      (by decide) (by decide)) not_false

/-- A `.csproj` path never also matches `.csx`. -/
theorem csproj_not_csx {r : Uri} (h : isCSharpProject r = true) : isCsx r = false := by
  cases hc : isCsx r
  · rfl
  · exact absurd (suffixes_clash ((isCSharpProject_eq r).mp h) ((isCsx_eq r).mp hc)
      (by decide) (by decide)) not_false

/-- A `.csproj` path never also matches `.cake`. -/
theorem csproj_not_cake {r : Uri} (h : isCSharpProject r = true) : isCake r = false := by
  cases hc : isCake r
  · rfl
  · exact absurd (suffixes_clash ((isCSharpProject_eq r).mp h) ((isCake_eq r).mp hc)
      (by decide) (by decide)) not_false

/-- A `.csproj` path never also matches `.cs`. -/
theorem csproj_not_cs {r : Uri} (h : isCSharpProject r = true) : isCs r = false := by
  cases hc : isCs r
  · rfl
  · exact absurd (suffixes_clash ((isCSharpProject_eq r).mp h) ((isCs_eq r).mp hc)
      (by decide) (by decide)) not_false

/-- Effect of the inner resource loop on the scan state: each accumulated
list grows by the folder's matching resources in discovery order, the
root and other buckets are untouched, and the per-folder flags record the
matches among the remaining resources. -/
theorem scan_foldl_spec (relPath : String → String) (fp : String) :
    ∀ (rs : List Uri) (b : Buckets) (f : ScanFlags),
      rs.foldl (scanResource relPath fp) (b, f) =
        ({ solutionTargets :=
             b.solutionTargets ++ (rs.filter (fun r => isSolution r)).map (solutionTarget relPath)
           projectJsonTargets :=
             b.projectJsonTargets
               ++ (rs.filter (fun r => isProjectJson r)).map (projectJsonTarget relPath)
           projectRootTargets := b.projectRootTargets
           projectTargets :=
             b.projectTargets ++ (rs.filter (fun r => isCSharpProject r)).map (projectTarget relPath)
           otherTargets := b.otherTargets },
         { hasProjectJsonAtRoot :=
             f.hasProjectJsonAtRoot
               || rs.any (fun r => isProjectJson r && (dirname r.fsPath == fp))
           hasCSX := f.hasCSX || rs.any (fun r => isCsx r)
           hasCake := f.hasCake || rs.any (fun r => isCake r)
           hasCs := f.hasCs || rs.any (fun r => isCs r) })
  | [], b, f => by simp
  | r :: rs, b, f => by
    by_cases hs : isSolution r = true
    · have h1 := sol_not_projectJson hs
      have h2 := sol_not_csproj hs
      have h3 := sol_not_csx hs
      have h4 := sol_not_cake hs
      have h5 := sol_not_cs hs
      rw [List.foldl_cons]
      simp only [scanResource, hs, if_true]
      rw [scan_foldl_spec relPath fp rs]
      simp [hs, h1, h2, h3, h4, h5, List.filter_cons, List.any_cons]
    · rw [Bool.not_eq_true] at hs
      by_cases hpj : isProjectJson r = true
      · have h2 := projectJson_not_csproj hpj
        have h3 := projectJson_not_csx hpj
        have h4 := projectJson_not_cake hpj
        have h5 := projectJson_not_cs hpj
        rw [List.foldl_cons]
        simp only [scanResource, hs, hpj, if_true, Bool.false_eq_true, if_false]
        rw [scan_foldl_spec relPath fp rs]
        simp [hs, hpj, h2, h3, h4, h5, List.filter_cons, List.any_cons, Bool.or_assoc]
      · rw [Bool.not_eq_true] at hpj
        by_cases hcp : isCSharpProject r = true
        · have h3 := csproj_not_csx hcp
          have h4 := csproj_not_cake hcp
          have h5 := csproj_not_cs hcp
          rw [List.foldl_cons]
          simp only [scanResource, hs, hpj, hcp, if_true, Bool.false_eq_true, if_false]
          rw [scan_foldl_spec relPath fp rs]
          simp [hs, hpj, hcp, h3, h4, h5, List.filter_cons, List.any_cons]
        · rw [Bool.not_eq_true] at hcp
          rw [List.foldl_cons]
          simp only [scanResource, hs, hpj, hcp, Bool.false_eq_true, if_false]
          rw [scan_foldl_spec relPath fp rs]
          simp [hs, hpj, hcp, List.filter_cons, List.any_cons, Bool.or_assoc]

/-- The per-folder conditional pushes only touch the root and other
buckets: the three per-resource lists after one folder are the incoming
lists extended by the folder's matches. -/
theorem processFolder_main_lists (relPath : String → String) (folders : List WorkspaceFolder)
    (b0 : Buckets) (entry : Nat × List Uri) :
    ((processFolder relPath folders b0 entry).solutionTargets
        = b0.solutionTargets ++ (entry.2.filter (fun r => isSolution r)).map (solutionTarget relPath))
      ∧ ((processFolder relPath folders b0 entry).projectJsonTargets
        = b0.projectJsonTargets
            ++ (entry.2.filter (fun r => isProjectJson r)).map (projectJsonTarget relPath))
      ∧ ((processFolder relPath folders b0 entry).projectTargets
        = b0.projectTargets
            ++ (entry.2.filter (fun r => isCSharpProject r)).map (projectTarget relPath)) := by
  simp only [processFolder, scan_foldl_spec]
  split_ifs <;> simp

/-- The three per-resource lists after the whole folder loop: the initial
lists extended by all matches over the flattened map, in map order. -/
theorem classifierBuckets_main_lists (relPath : String → String)
    (folders : List WorkspaceFolder) :
    ∀ (folderMap : List (Nat × List Uri)) (b0 : Buckets),
      ((folderMap.foldl (processFolder relPath folders) b0).solutionTargets
          = b0.solutionTargets
              ++ (((folderMap.map Prod.snd).flatten).filter (fun r => isSolution r)).map
                (solutionTarget relPath))
        ∧ ((folderMap.foldl (processFolder relPath folders) b0).projectJsonTargets
          = b0.projectJsonTargets
              ++ (((folderMap.map Prod.snd).flatten).filter (fun r => isProjectJson r)).map
                (projectJsonTarget relPath))
        ∧ ((folderMap.foldl (processFolder relPath folders) b0).projectTargets
          = b0.projectTargets
              ++ (((folderMap.map Prod.snd).flatten).filter (fun r => isCSharpProject r)).map
                (projectTarget relPath))
  | [], b0 => by simp
  | e :: folderMap, b0 => by
    rw [List.foldl_cons]
    obtain ⟨ih1, ih2, ih3⟩ :=
      classifierBuckets_main_lists relPath folders folderMap (processFolder relPath folders b0 e)
    obtain ⟨p1, p2, p3⟩ := processFolder_main_lists relPath folders b0 e
    refine ⟨?_, ?_, ?_⟩ <;> simp [ih1, ih2, ih3, p1, p2, p3, List.filter_append]

/-- A nonempty-filter test written as the source writes it (a positivity
test on the length of a mapped filter) equals a simple `any`. -/
theorem decide_pos_length_eq_any (p : Uri → Bool) (g : Uri → LaunchTarget) (l : List Uri) :
    decide (0 < ((l.filter p).map g).length) = l.any p := by
  cases h : l.any p
  · have : l.filter p = [] := by
      rw [List.filter_eq_nil_iff]
      intro a ha
      have := List.any_eq_false.mp h a ha
      simp [this]
    simp [this]
  · obtain ⟨a, ha, hpa⟩ := List.any_eq_true.mp h
    have : a ∈ l.filter p := List.mem_filter.mpr ⟨ha, hpa⟩
    have hlen : 0 < (l.filter p).length := List.length_pos.mpr (List.ne_nil_of_mem this)
    simp [hlen]

/-- C1 (amended): while a folder entry is processed, the synthetic
root-folder target is pushed if and only if the csproj/solution/
project-json existence booleans taken over ALL resources scanned so far
(previous folders included) satisfy the rule; only the at-root boolean is
per-folder. -/
theorem rootFolderRule_accumulated (relPath : String → String)
    (folders : List WorkspaceFolder) (pre : List (Nat × List Uri))
    (idx : Nat) (rs : List Uri) :
    (processFolder relPath folders (classifierBuckets relPath folders pre)
        (idx, rs)).projectRootTargets
      = (classifierBuckets relPath folders pre).projectRootTargets
          ++ (if ((((pre.map Prod.snd).flatten ++ rs).any (fun r => isCSharpProject r)
                    && !(((pre.map Prod.snd).flatten ++ rs).any (fun r => isSolution r)))
                || (((pre.map Prod.snd).flatten ++ rs).any (fun r => isProjectJson r)
                    && !(rs.any (fun r => isProjectJson r
                          && (dirname r.fsPath == (folders.getD idx ⟨0, ""⟩).fsPath))))) then
              [rootFolderTarget (folders.getD idx ⟨0, ""⟩).fsPath]
            else [])
    := by
  obtain ⟨e1, e2, e3⟩ := classifierBuckets_main_lists relPath folders pre emptyBuckets
  have hb1 : (classifierBuckets relPath folders pre).solutionTargets
      = (((pre.map Prod.snd).flatten).filter (fun r => isSolution r)).map
          (solutionTarget relPath) := by
    simpa [classifierBuckets, emptyBuckets] using e1
  have hb2 : (classifierBuckets relPath folders pre).projectJsonTargets
      = (((pre.map Prod.snd).flatten).filter (fun r => isProjectJson r)).map
          (projectJsonTarget relPath) := by
    simpa [classifierBuckets, emptyBuckets] using e2
  have hb3 : (classifierBuckets relPath folders pre).projectTargets
      = (((pre.map Prod.snd).flatten).filter (fun r => isCSharpProject r)).map
          (projectTarget relPath) := by
    simpa [classifierBuckets, emptyBuckets] using e3
  have hsol : decide (0 < ((classifierBuckets relPath folders pre).solutionTargets
        ++ (rs.filter (fun r => isSolution r)).map (solutionTarget relPath)).length)
      = ((pre.map Prod.snd).flatten ++ rs).any (fun r => isSolution r) := by
    rw [hb1, ← List.map_append, ← List.filter_append]
    exact decide_pos_length_eq_any _ _ _
  have hpj : decide (0 < ((classifierBuckets relPath folders pre).projectJsonTargets
        ++ (rs.filter (fun r => isProjectJson r)).map (projectJsonTarget relPath)).length)
      = ((pre.map Prod.snd).flatten ++ rs).any (fun r => isProjectJson r) := by
    rw [hb2, ← List.map_append, ← List.filter_append]
    exact decide_pos_length_eq_any _ _ _
  have hproj : decide (0 < ((classifierBuckets relPath folders pre).projectTargets
        ++ (rs.filter (fun r => isCSharpProject r)).map (projectTarget relPath)).length)
      = ((pre.map Prod.snd).flatten ++ rs).any (fun r => isCSharpProject r) := by
    rw [hb3, ← List.map_append, ← List.filter_append]
    exact decide_pos_length_eq_any _ _ _
  simp only [processFolder, scan_foldl_spec]
  simp only [hsol, hpj, hproj, initialFlags, Bool.false_or]
  split_ifs <;> simp

/-- C8 (amended): while a folder entry is processed, the other-targets
bucket gains the folder CSX and Cake targets for per-folder matches, and
the loose-source fallback Folder target (empty description) exactly when
the folder saw a plain source file and the solution/csproj/project-json
absence booleans hold over ALL resources scanned so far (previous folders
included); the at-root boolean is per-folder. -/
theorem looseSourceRule_accumulated (relPath : String → String)
    (folders : List WorkspaceFolder) (pre : List (Nat × List Uri))
    (idx : Nat) (rs : List Uri) :
    (processFolder relPath folders (classifierBuckets relPath folders pre)
        (idx, rs)).otherTargets
      = (classifierBuckets relPath folders pre).otherTargets
          ++ (if rs.any (fun r => isCsx r) then
                [csxTarget (folders.getD idx ⟨0, ""⟩).fsPath]
              else [])
          ++ (if rs.any (fun r => isCake r) then
                [cakeTarget (folders.getD idx ⟨0, ""⟩).fsPath]
              else [])
          ++ (if (rs.any (fun r => isCs r)
                  && !(((pre.map Prod.snd).flatten ++ rs).any (fun r => isSolution r))
                  && !(((pre.map Prod.snd).flatten ++ rs).any (fun r => isCSharpProject r))
                  && !(((pre.map Prod.snd).flatten ++ rs).any (fun r => isProjectJson r))
                  && !(rs.any (fun r => isProjectJson r
                        && (dirname r.fsPath == (folders.getD idx ⟨0, ""⟩).fsPath)))) then
                [looseCsTarget (folders.getD idx ⟨0, ""⟩).fsPath]
              else [])
    := by
  obtain ⟨e1, e2, e3⟩ := classifierBuckets_main_lists relPath folders pre emptyBuckets
  have hb1 : (classifierBuckets relPath folders pre).solutionTargets
      = (((pre.map Prod.snd).flatten).filter (fun r => isSolution r)).map
          (solutionTarget relPath) := by
    simpa [classifierBuckets, emptyBuckets] using e1
  have hb2 : (classifierBuckets relPath folders pre).projectJsonTargets
      = (((pre.map Prod.snd).flatten).filter (fun r => isProjectJson r)).map
          (projectJsonTarget relPath) := by
    simpa [classifierBuckets, emptyBuckets] using e2
  have hb3 : (classifierBuckets relPath folders pre).projectTargets
      = (((pre.map Prod.snd).flatten).filter (fun r => isCSharpProject r)).map
          (projectTarget relPath) := by
    simpa [classifierBuckets, emptyBuckets] using e3
  have hsol : decide (0 < ((classifierBuckets relPath folders pre).solutionTargets
        ++ (rs.filter (fun r => isSolution r)).map (solutionTarget relPath)).length)
      = ((pre.map Prod.snd).flatten ++ rs).any (fun r => isSolution r) := by
    rw [hb1, ← List.map_append, ← List.filter_append]
    exact decide_pos_length_eq_any _ _ _
  have hpj : decide (0 < ((classifierBuckets relPath folders pre).projectJsonTargets
        ++ (rs.filter (fun r => isProjectJson r)).map (projectJsonTarget relPath)).length)
      = ((pre.map Prod.snd).flatten ++ rs).any (fun r => isProjectJson r) := by
    rw [hb2, ← List.map_append, ← List.filter_append]
    exact decide_pos_length_eq_any _ _ _
  have hproj : decide (0 < ((classifierBuckets relPath folders pre).projectTargets
        ++ (rs.filter (fun r => isCSharpProject r)).map (projectTarget relPath)).length)
      = ((pre.map Prod.snd).flatten ++ rs).any (fun r => isCSharpProject r) := by
    rw [hb3, ← List.map_append, ← List.filter_append]
    exact decide_pos_length_eq_any _ _ _
  simp only [processFolder, scan_foldl_spec]
  simp only [hsol, hpj, hproj, initialFlags, Bool.false_or]
  split_ifs <;> simp

/-- C1 (counterexample): with a solution in the first workspace folder and
only `nested` csproj content in the second, the per-folder rule of the
claim holds for the second folder (csproj anywhere, no solution in that
folder), yet the classifier output contains no synthetic Folder target
for that folder's root — the booleans are accumulated, not per-folder. -/
theorem rootFolderRule_perFolder_ce :
    (([Uri.mk "file" "/b/y.csproj"].any (fun r => isCSharpProject r)
        && !([Uri.mk "file" "/b/y.csproj"].any (fun r => isSolution r))) = true)
    ∧ ((resourcesAndFolderMapToLaunchTargets id []
          [⟨0, "/a"⟩, ⟨1, "/b"⟩]
          [(0, [Uri.mk "file" "/a/x.sln"]), (1, [Uri.mk "file" "/b/y.csproj"])] 0).any
        (fun t => decide (t.workspaceKind = LaunchTargetKind.Folder)
          && (t.directory == "/b")) = false) := by
  decide

/-- C8 (counterexample): with a solution in the first workspace folder and
only a plain source file in the second, the per-folder fallback condition
of the claim holds for the second folder, yet the classifier output
contains no Folder target for that folder's root. -/
theorem looseSourceRule_perFolder_ce :
    (([Uri.mk "file" "/b/y.cs"].any (fun r => isCs r)
        && !([Uri.mk "file" "/b/y.cs"].any (fun r => isSolution r))
        && !([Uri.mk "file" "/b/y.cs"].any (fun r => isCSharpProject r))
        && !([Uri.mk "file" "/b/y.cs"].any (fun r => isProjectJson r))) = true)
    ∧ ((resourcesAndFolderMapToLaunchTargets id []
          [⟨0, "/a"⟩, ⟨1, "/b"⟩]
          [(0, [Uri.mk "file" "/a/x.sln"]), (1, [Uri.mk "file" "/b/y.cs"])] 0).any
        (fun t => decide (t.workspaceKind = LaunchTargetKind.Folder)
          && (t.directory == "/b")) = false) := by
  decide

/-- C2 (counterexample): with the debugger wait enabled the spawned mono
argument vector does not start with the debug flag followed by the
debugger-agent specification; the two unshifts produce the opposite
order. -/
theorem monoDebugArgOrder_ce :
    (launchNixMono "omnisharp.exe" "/w" ["-s"] [] true).args ≠
      ["--debug",
       "--debugger-agent=transport=dt_socket,server=y,address=127.0.0.1:55555",
       "--assembly-loader=strict", "omnisharp.exe", "-s"] := by
  decide

/-- C2 (amended): the legacy-runtime debugger-wait argument vector is, in
order, the debugger-agent specification, the debug flag, the strict
assembly-loader flag, the launch path, then the original arguments. -/
theorem monoDebugArgOrder (launchPath cwd : String) (args : List String)
    (env : List (String × String)) :
    (launchNixMono launchPath cwd args env true).command = "mono"
    ∧ (launchNixMono launchPath cwd args env true).args
        = "--debugger-agent=transport=dt_socket,server=y,address=127.0.0.1:55555"
          :: "--debug" :: "--assembly-loader=strict" :: launchPath :: args :=
  ⟨rfl, rfl⟩

/-- Modelled from the spec (claim C3 wording): wrap any whitespace-
containing argument that is not already fully quoted; otherwise replace
EVERY literal ampersand with caret-ampersand. -/
def replaceAllAmpChars : List Char → List Char
  | [] => []
  | c :: t => if c = '&' then '^' :: '&' :: replaceAllAmpChars t else c :: replaceAllAmpChars t

/-- Modelled from the spec (claim C3 wording): the whole per-argument
escaping rule as the claim states it. -/
def escapeIfNeededSpec (arg : String) : String :=
  if arg.data.any (fun c => c.isWhitespace)
      && !((arg.data.head? == some '"') && (arg.data.getLast? == some '"')
            && decide (2 ≤ arg.data.length)) then
    "\"" ++ arg ++ "\""
  else ⟨replaceAllAmpChars arg.data⟩

/-- C3 (counterexample): on an argument with two ampersands and no
whitespace the claim requires both ampersands escaped, but the code's
plain-string `replace` rewrites only the first. -/
theorem escapeEveryAmp_ce :
    escapeIfNeededSpec "a&b&c" = "a^&b^&c"
    ∧ escapeIfNeeded "a&b&c" = "a^&b&c"
    ∧ escapeIfNeeded "a&b&c" ≠ escapeIfNeededSpec "a&b&c" := by
  decide

/-- Characterization of `escCore`: some split into dot characters followed
by a non-quote character. -/
theorem escCore_iff : ∀ (l : List Char),
    escCore l = true ↔
      ∃ v d w, l = v ++ d :: w ∧ (∀ x ∈ v, dotCharB x = true) ∧ d ≠ '"'
  | [] => by simp [escCore]
  | c :: t => by
    rw [escCore]
    constructor
    · intro h
      rw [Bool.or_eq_true] at h
      rcases h with h1 | h2
      · exact ⟨[], c, t, rfl, by simp, by simpa using h1⟩
      · rw [Bool.and_eq_true] at h2
        obtain ⟨hd, he⟩ := h2
        obtain ⟨v, d, w, rfl, hv, hdq⟩ := (escCore_iff t).mp he
        refine ⟨c :: v, d, w, rfl, ?_, hdq⟩
        intro x hx
        rcases List.mem_cons.mp hx with rfl | hx
        · exact hd
        · exact hv x hx
    · rintro ⟨v, d, w, he, hv, hdq⟩
      cases v with
      | nil =>
        simp only [List.nil_append, List.cons.injEq] at he
        rw [Bool.or_eq_true]
        left
        simpa [he.1] using hdq
      | cons x v =>
        simp only [List.cons_append, List.cons.injEq] at he
        rw [Bool.or_eq_true]
        right
        rw [Bool.and_eq_true]
        refine ⟨he.1 ▸ hv x (List.mem_cons_self x v), ?_⟩
        exact (escCore_iff t).mpr
          ⟨v, d, w, he.2, fun y hy => hv y (List.mem_cons_of_mem x hy), hdq⟩

/-- Characterization of `escAfterFirst`: some split into dot characters, a
space, dot characters, then a non-quote character. -/
theorem escAfterFirst_iff : ∀ (l : List Char),
    escAfterFirst l = true ↔
      ∃ u v d w, l = u ++ ' ' :: (v ++ d :: w)
        ∧ (∀ x ∈ u, dotCharB x = true) ∧ (∀ x ∈ v, dotCharB x = true) ∧ d ≠ '"'
  | [] => by simp [escAfterFirst]
  | c :: t => by
    rw [escAfterFirst]
    constructor
    · intro h
      rw [Bool.or_eq_true] at h
      rcases h with h1 | h2
      · rw [Bool.and_eq_true] at h1
        obtain ⟨hc, he⟩ := h1
        obtain ⟨v, d, w, rfl, hv, hdq⟩ := (escCore_iff t).mp he
        exact ⟨[], v, d, w, by simp [show c = ' ' from by simpa using hc], by simp, hv, hdq⟩
      · rw [Bool.and_eq_true] at h2
        obtain ⟨hd, he⟩ := h2
        obtain ⟨u, v, d, w, rfl, hu, hv, hdq⟩ := (escAfterFirst_iff t).mp he
        refine ⟨c :: u, v, d, w, rfl, ?_, hv, hdq⟩
        intro x hx
        rcases List.mem_cons.mp hx with rfl | hx
        · exact hd
        · exact hu x hx
    · rintro ⟨u, v, d, w, he, hu, hv, hdq⟩
      cases u with
      | nil =>
        simp only [List.nil_append, List.cons.injEq] at he
        rw [Bool.or_eq_true]
        left
        rw [Bool.and_eq_true]
        refine ⟨by simp [he.1], ?_⟩
        exact (escCore_iff t).mpr ⟨v, d, w, he.2, hv, hdq⟩
      | cons x u =>
        simp only [List.cons_append, List.cons.injEq] at he
        rw [Bool.or_eq_true]
        right
        rw [Bool.and_eq_true]
        refine ⟨he.1 ▸ hu x (List.mem_cons_self x u), ?_⟩
        exact (escAfterFirst_iff t).mpr
          ⟨u, v, d, w, he.2, fun y hy => hu y (List.mem_cons_of_mem x hy), hv, hdq⟩

/-- The matching condition of the `hasSpaceWithoutQuotes` regex, spelled
out: a non-quote first character, a space somewhere after it, and a later
non-quote character, with only dot characters elsewhere before that. -/
def SpaceWithoutQuotesP (arg : String) : Prop :=
  ∃ c u v d w, arg.data = c :: (u ++ ' ' :: (v ++ d :: w))
    ∧ c ≠ '"' ∧ (∀ x ∈ u, dotCharB x = true) ∧ (∀ x ∈ v, dotCharB x = true) ∧ d ≠ '"'

/-- The regex test agrees with its spelled-out characterization. -/
theorem hasSpaceWithoutQuotes_iff (arg : String) :
    hasSpaceWithoutQuotes arg = true ↔ SpaceWithoutQuotesP arg := by
  unfold hasSpaceWithoutQuotes SpaceWithoutQuotesP
  cases harg : arg.data with
  | nil => simp
  | cons c t =>
    simp only [harg]
    constructor
    · intro h
      rw [Bool.and_eq_true] at h
      obtain ⟨hc, he⟩ := h
      obtain ⟨u, v, d, w, rfl, hu, hv, hdq⟩ := (escAfterFirst_iff t).mp he
      exact ⟨c, u, v, d, w, rfl, by simpa using hc, hu, hv, hdq⟩
    · rintro ⟨c', u, v, d, w, he, hc, hu, hv, hdq⟩
      simp only [List.cons.injEq] at he
      obtain ⟨rfl, rfl⟩ : c' = c ∧ u ++ ' ' :: (v ++ d :: w) = t := ⟨he.1.symm, he.2.symm⟩
      rw [Bool.and_eq_true]
      refine ⟨by simpa using hc, ?_⟩
      exact (escAfterFirst_iff (u ++ ' ' :: (v ++ d :: w))).mpr ⟨u, v, d, w, rfl, hu, hv, hdq⟩

/-- A list without ampersands is untouched by the first-occurrence
replacement. -/
theorem replaceFirstAmp_no_amp : ∀ (l : List Char), '&' ∉ l → replaceFirstAmpChars l = l
  | [], _ => rfl
  | c :: t, h => by
    have hc : ¬ c = '&' := fun hc => h (by simp [hc])
    rw [replaceFirstAmpChars, if_neg hc,
      replaceFirstAmp_no_amp t (fun ht => h (List.mem_cons_of_mem c ht))]

/-- The first-occurrence replacement rewrites exactly the first ampersand
and keeps everything after it. -/
theorem replaceFirstAmp_split : ∀ (u t : List Char), '&' ∉ u →
    replaceFirstAmpChars (u ++ '&' :: t) = u ++ '^' :: '&' :: t
  | [], t, _ => by
    rw [List.nil_append, replaceFirstAmpChars, if_pos rfl, List.nil_append]
  | x :: u, t, h => by
    have hx : ¬ x = '&' := fun hc => h (by simp [hc])
    rw [List.cons_append, replaceFirstAmpChars, if_neg hx,
      replaceFirstAmp_split u t (fun hu => h (List.mem_cons_of_mem x hu)),
      List.cons_append]

/-- C3 (amended): an argument is wrapped in double quotes exactly when its
first character is not a double quote and a space occurs after it with a
later non-quote character; every other argument has only its FIRST
literal ampersand replaced by caret-ampersand (and is unchanged when it
has none). -/
theorem escapeIfNeeded_rule (arg : String) :
    (SpaceWithoutQuotesP arg → escapeIfNeeded arg = "\"" ++ arg ++ "\"")
    ∧ (¬ SpaceWithoutQuotesP arg →
        ('&' ∉ arg.data → escapeIfNeeded arg = arg)
        ∧ (∀ u t, arg.data = u ++ '&' :: t → '&' ∉ u →
            (escapeIfNeeded arg).data = u ++ '^' :: '&' :: t)) := by
  constructor
  · intro h
    have hb : hasSpaceWithoutQuotes arg = true := (hasSpaceWithoutQuotes_iff arg).mpr h
    simp [escapeIfNeeded, hb]
  · intro h
    have hb : hasSpaceWithoutQuotes arg = false := by
      cases hh : hasSpaceWithoutQuotes arg
      · rfl
      · exact absurd ((hasSpaceWithoutQuotes_iff arg).mp hh) h
    constructor
    · intro hn
      simp only [escapeIfNeeded, hb, Bool.false_eq_true, if_false]
      rw [replaceFirstAmp_no_amp arg.data hn]
    · intro u t he hu
      simp only [escapeIfNeeded, hb, Bool.false_eq_true, if_false]
      rw [he, replaceFirstAmp_split u t hu]

/-- Witness for the amended C3 rule at two concrete arguments: one with an
unquoted space (wrapped) and one with two ampersands and no space (only
the first ampersand escaped). -/
theorem escapeIfNeeded_rule_witness :
    escapeIfNeeded "a b" = "\"" ++ "a b" ++ "\""
    ∧ (escapeIfNeeded "x&y&z").data = ['x'] ++ '^' :: '&' :: ['y', '&', 'z'] := by
  constructor
  · exact (escapeIfNeeded_rule "a b").1
      ⟨'a', [], [], 'b', [], rfl, by decide, by simp, by simp, by decide⟩
  · have hnot : ¬ SpaceWithoutQuotesP "x&y&z" := by
      intro hP
      have := (hasSpaceWithoutQuotes_iff "x&y&z").mpr hP
      exact absurd this (by decide)
    exact ((escapeIfNeeded_rule "x&y&z").2 hnot).2 ['x'] ['y', '&', 'z'] rfl (by decide)

/-- C7: on the managed-runtime path a non-`.dll` launch hint is itself the
spawned command with the original arguments unchanged, and a `.dll` hint
is run through `dotnet.exe` on Windows and `dotnet` elsewhere with the
hint inserted as first argument. -/
theorem dotnetLaunchPathRule (launchPath : String) (cwd : String) (args : List String)
    (isWindows : Bool) (info : HostExecutableInfo) :
    (endsWithDll launchPath = false →
      (launchDotnet launchPath cwd args isWindows info).process.command = launchPath
      ∧ (launchDotnet launchPath cwd args isWindows info).process.args = args)
    ∧ (endsWithDll launchPath = true →
      (launchDotnet launchPath cwd args isWindows info).process.command
          = (if isWindows then "dotnet.exe" else "dotnet")
      ∧ (launchDotnet launchPath cwd args isWindows info).process.args
          = launchPath :: args) := by
  constructor
  · intro h
    constructor <;> simp [launchDotnet, h]
  · intro h
    constructor <;> simp [launchDotnet, h]

/-- Witness for C7 at a bundled executable hint and a managed assembly
hint. -/
theorem dotnetLaunchPathRule_witness :
    (launchDotnet "omnisharp" "/w" ["-s"] false ⟨"/usr/bin/dotnet", "6.0", []⟩).process.command
        = "omnisharp"
    ∧ (launchDotnet "OmniSharp.dll" "/w" ["-s"] true
        ⟨"/usr/bin/dotnet", "6.0", []⟩).process.args = "OmniSharp.dll" :: ["-s"] :=
  ⟨((dotnetLaunchPathRule "omnisharp" "/w" ["-s"] false
      ⟨"/usr/bin/dotnet", "6.0", []⟩).1 (by decide)).1,
   ((dotnetLaunchPathRule "OmniSharp.dll" "/w" ["-s"] true
      ⟨"/usr/bin/dotnet", "6.0", []⟩).2 (by decide)).2⟩

/-- C9: a positive maximum truncates the final concatenated order to its
first entries, while zero or a negative maximum returns everything. -/
theorem maxResultsRule (relPath : String → String) (resources : List Uri)
    (folders : List WorkspaceFolder) (folderMap : List (Nat × List Uri)) (m : Int) :
    resourcesAndFolderMapToLaunchTargets relPath resources folders folderMap m
      = if 0 < m then
          (resourcesAndFolderMapToLaunchTargets relPath resources folders folderMap 0).take
            m.toNat
        else resourcesAndFolderMapToLaunchTargets relPath resources folders folderMap 0 := by
  simp [resourcesAndFolderMapToLaunchTargets]

/-- C5: before truncation the classifier output is exactly the other
bucket (in discovery order) followed by the sorted solution, synthetic
folder, project-json and project buckets, each sorted ascending by
directory and each a permutation of its discovery-order bucket. -/
theorem finalOrderSorted (relPath : String → String) (folders : List WorkspaceFolder)
    (folderMap : List (Nat × List Uri)) :
    (allLaunchTargets relPath folders folderMap
      = (classifierBuckets relPath folders folderMap).otherTargets
        ++ sortByDirectory (classifierBuckets relPath folders folderMap).solutionTargets
        ++ sortByDirectory (classifierBuckets relPath folders folderMap).projectRootTargets
        ++ sortByDirectory (classifierBuckets relPath folders folderMap).projectJsonTargets
        ++ sortByDirectory (classifierBuckets relPath folders folderMap).projectTargets)
    ∧ List.Sorted dirLE
        (sortByDirectory (classifierBuckets relPath folders folderMap).solutionTargets)
    ∧ List.Sorted dirLE
        (sortByDirectory (classifierBuckets relPath folders folderMap).projectRootTargets)
    ∧ List.Sorted dirLE
        (sortByDirectory (classifierBuckets relPath folders folderMap).projectJsonTargets)
    ∧ List.Sorted dirLE
        (sortByDirectory (classifierBuckets relPath folders folderMap).projectTargets)
    ∧ List.Perm (sortByDirectory (classifierBuckets relPath folders folderMap).solutionTargets)
        (classifierBuckets relPath folders folderMap).solutionTargets
    ∧ List.Perm
        (sortByDirectory (classifierBuckets relPath folders folderMap).projectRootTargets)
        (classifierBuckets relPath folders folderMap).projectRootTargets
    ∧ List.Perm
        (sortByDirectory (classifierBuckets relPath folders folderMap).projectJsonTargets)
        (classifierBuckets relPath folders folderMap).projectJsonTargets
    ∧ List.Perm (sortByDirectory (classifierBuckets relPath folders folderMap).projectTargets)
        (classifierBuckets relPath folders folderMap).projectTargets :=
  ⟨rfl,
   List.sorted_insertionSort dirLE _, List.sorted_insertionSort dirLE _,
   List.sorted_insertionSort dirLE _, List.sorted_insertionSort dirLE _,
   List.perm_insertionSort dirLE _, List.perm_insertionSort dirLE _,
   List.perm_insertionSort dirLE _, List.perm_insertionSort dirLE _⟩

/-- Membership in any of the five accumulated buckets. -/
def InBuckets (t : LaunchTarget) (b : Buckets) : Prop :=
  t ∈ b.solutionTargets ∨ t ∈ b.projectJsonTargets ∨ t ∈ b.projectRootTargets
    ∨ t ∈ b.projectTargets ∨ t ∈ b.otherTargets

/-- A target built by one of the seven record constructors the folder loop
pushes. -/
def IsConstructed (relPath : String → String) (t : LaunchTarget) : Prop :=
  (∃ r, solutionTarget relPath r = t) ∨ (∃ r, projectJsonTarget relPath r = t)
    ∨ (∃ r, projectTarget relPath r = t) ∨ (∃ fp, rootFolderTarget fp = t)
    ∨ (∃ fp, csxTarget fp = t) ∨ (∃ fp, cakeTarget fp = t) ∨ (∃ fp, looseCsTarget fp = t)

/-- One scan step only appends constructed targets. -/
theorem mem_scanResource (relPath : String → String) (fp : String)
    (s : Buckets × ScanFlags) (r : Uri) (t : LaunchTarget) :
    InBuckets t (scanResource relPath fp s r).1 →
      InBuckets t s.1 ∨ IsConstructed relPath t := by
  obtain ⟨b, f⟩ := s
  simp only [scanResource]
  split_ifs <;> intro h <;>
    simp only [InBuckets, IsConstructed, List.mem_append, List.mem_singleton] at h ⊢ <;>
    aesop

/-- The whole inner loop only appends constructed targets. -/
theorem mem_scan_foldl (relPath : String → String) (fp : String) :
    ∀ (rs : List Uri) (s : Buckets × ScanFlags) (t : LaunchTarget),
      InBuckets t ((rs.foldl (scanResource relPath fp) s).1) →
        InBuckets t s.1 ∨ IsConstructed relPath t
  | [], _, _, h => Or.inl h
  | r :: rs, s, t, h => by
    rw [List.foldl_cons] at h
    rcases mem_scan_foldl relPath fp rs _ t h with h2 | h2
    · exact mem_scanResource relPath fp s r t h2
    · exact Or.inr h2

/-- Peeling a conditional push onto the other bucket. -/
theorem InBuckets_ite_push_other {c : Prop} [Decidable c] {X : Buckets}
    {y t : LaunchTarget} :
    InBuckets t (if c then { X with otherTargets := X.otherTargets ++ [y] } else X) →
      InBuckets t X ∨ t = y := by
  split_ifs with hc
  · intro h
    simp only [InBuckets, List.mem_append, List.mem_singleton] at h ⊢
    tauto
  · exact fun h => Or.inl h

/-- Peeling the conditional push onto the root-folder bucket. -/
theorem InBuckets_ite_push_root {c : Prop} [Decidable c] {X : Buckets}
    {y t : LaunchTarget} :
    InBuckets t
        (if c then { X with projectRootTargets := X.projectRootTargets ++ [y] } else X) →
      InBuckets t X ∨ t = y := by
  split_ifs with hc
  · intro h
    simp only [InBuckets, List.mem_append, List.mem_singleton] at h ⊢
    tauto
  · exact fun h => Or.inl h

/-- Every target present after one folder iteration was already present or
was pushed by one of the seven constructors. -/
theorem mem_processFolder (relPath : String → String) (folders : List WorkspaceFolder)
    (b : Buckets) (entry : Nat × List Uri) (t : LaunchTarget) :
    InBuckets t (processFolder relPath folders b entry) →
      InBuckets t b ∨ IsConstructed relPath t := by
  simp only [processFolder]
  generalize hscan :
    entry.2.foldl (scanResource relPath (folders.getD entry.1 (WorkspaceFolder.mk 0 "")).fsPath)
      (b, initialFlags) = s0
  intro h
  rcases InBuckets_ite_push_other h with h1 | rfl
  · rcases InBuckets_ite_push_other h1 with h2 | rfl
    · rcases InBuckets_ite_push_other h2 with h3 | rfl
      · rcases InBuckets_ite_push_root h3 with h4 | rfl
        · have h5 := mem_scan_foldl relPath
            (folders.getD entry.1 (WorkspaceFolder.mk 0 "")).fsPath entry.2
            (b, initialFlags) t (by rw [hscan]; exact h4)
          simpa using h5
        · exact Or.inr (Or.inr (Or.inr (Or.inr (Or.inl ⟨_, rfl⟩))))
      · exact Or.inr (Or.inr (Or.inr (Or.inr (Or.inr (Or.inl ⟨_, rfl⟩)))))
    · exact Or.inr (Or.inr (Or.inr (Or.inr (Or.inr (Or.inr (Or.inl ⟨_, rfl⟩))))))
  · exact Or.inr (Or.inr (Or.inr (Or.inr (Or.inr (Or.inr (Or.inr ⟨_, rfl⟩))))))

/-- Every target present after the whole folder loop was already present
or was pushed by one of the seven constructors. -/
theorem mem_foldl_processFolder (relPath : String → String)
    (folders : List WorkspaceFolder) :
    ∀ (folderMap : List (Nat × List Uri)) (b : Buckets) (t : LaunchTarget),
      InBuckets t (folderMap.foldl (processFolder relPath folders) b) →
        InBuckets t b ∨ IsConstructed relPath t
  | [], _, _, h => Or.inl h
  | e :: folderMap, b, t, h => by
    rw [List.foldl_cons] at h
    rcases mem_foldl_processFolder relPath folders folderMap
        (processFolder relPath folders b e) t h with h2 | h2
    · exact mem_processFolder relPath folders b e t h2
    · exact Or.inr h2

/-- Every element of the pre-truncation classifier output was pushed by
one of the seven constructors. -/
theorem mem_allLaunchTargets (relPath : String → String)
    (folders : List WorkspaceFolder) (folderMap : List (Nat × List Uri))
    (t : LaunchTarget) (h : t ∈ allLaunchTargets relPath folders folderMap) :
    IsConstructed relPath t := by
  have hin : InBuckets t (classifierBuckets relPath folders folderMap) := by
    unfold allLaunchTargets at h
    simp only [List.mem_append, sortByDirectory, List.mem_insertionSort] at h
    unfold InBuckets
    tauto
  rcases mem_foldl_processFolder relPath folders folderMap emptyBuckets t hin with h2 | h2
  · simp [InBuckets, emptyBuckets] at h2
  · exact h2

/-- The classifier either returns empty, the live-share sentinel, or the
folder-map classification of the local resources. -/
theorem resourcesToLaunchTargets_cases (getFolder : Uri → Option WorkspaceFolder)
    (relPath : String → String) (resources : List Uri)
    (folders : List WorkspaceFolder) (m : Int) :
    resourcesToLaunchTargets getFolder relPath resources folders m = []
    ∨ resourcesToLaunchTargets getFolder relPath resources folders m = [vslsTarget]
    ∨ resourcesToLaunchTargets getFolder relPath resources folders m
        = resourcesAndFolderMapToLaunchTargets relPath resources folders
            (buildUriMap getFolder
              (resources.filter (fun r => !disabledSchemes.contains r.scheme))) m := by
  simp only [resourcesToLaunchTargets]
  split_ifs
  · exact Or.inl rfl
  · exact Or.inr (Or.inl rfl)
  · exact Or.inr (Or.inr rfl)

/-- The sentinel is not one of the seven constructed target shapes. -/
theorem vslsTarget_not_constructed (relPath : String → String) :
    ¬ IsConstructed relPath vslsTarget := by
  intro h
  rcases h with ⟨r, h⟩ | ⟨r, h⟩ | ⟨r, h⟩ | ⟨fp, h⟩ | ⟨fp, h⟩ | ⟨fp, h⟩ | ⟨fp, h⟩ <;>
    exact absurd (congrArg LaunchTarget.workspaceKind h) (by simp [solutionTarget,
      projectJsonTarget, projectTarget, rootFolderTarget, csxTarget, cakeTarget,
      looseCsTarget, vslsTarget])

/-- C4: empty input returns empty, and the output is exactly the single
live-share sentinel precisely when the input is non-empty and every
resource uses a disabled scheme. -/
theorem liveShareSentinelRule (getFolder : Uri → Option WorkspaceFolder)
    (relPath : String → String) (resources : List Uri)
    (folders : List WorkspaceFolder) (m : Int) :
    (resources = [] → resourcesToLaunchTargets getFolder relPath resources folders m = [])
    ∧ (resourcesToLaunchTargets getFolder relPath resources folders m = [vslsTarget]
        ↔ resources ≠ [] ∧ ∀ r ∈ resources, r.scheme ∈ disabledSchemes) := by
  constructor
  · intro h
    simp [resourcesToLaunchTargets, h]
  · constructor
    · intro h
      by_cases hres : resources = []
      · rw [hres] at h
        simp [resourcesToLaunchTargets] at h
      · refine ⟨hres, ?_⟩
        by_contra hnot
        push_neg at hnot
        obtain ⟨r0, hr0mem, hr0⟩ := hnot
        have hlen : ¬ resources.length = 0 := by
          simpa [List.length_eq_zero] using hres
        have hmem : r0 ∈ resources.filter (fun r => !disabledSchemes.contains r.scheme) :=
          List.mem_filter.mpr ⟨hr0mem, by simpa using hr0⟩
        have hfil : ¬ (resources.filter
            (fun r => !disabledSchemes.contains r.scheme)).length = 0 := by
          intro hl
          rw [List.length_eq_zero] at hl
          rw [hl] at hmem
          exact absurd hmem (List.not_mem_nil r0)
        simp only [resourcesToLaunchTargets, hlen, hfil, if_false] at h
        have hv : vslsTarget ∈ resourcesAndFolderMapToLaunchTargets relPath resources folders
            (buildUriMap getFolder
              (resources.filter (fun r => !disabledSchemes.contains r.scheme))) m := by
          rw [h]
          exact List.mem_singleton.mpr rfl
        have hv2 : vslsTarget ∈ allLaunchTargets relPath folders
            (buildUriMap getFolder
              (resources.filter (fun r => !disabledSchemes.contains r.scheme))) := by
          simp only [resourcesAndFolderMapToLaunchTargets] at hv
          by_cases hm : 0 < m
          · rw [if_pos hm] at hv
            exact List.take_subset _ _ hv
          · rw [if_neg hm] at hv
            exact hv
        exact absurd (mem_allLaunchTargets relPath folders _ vslsTarget hv2)
          (vslsTarget_not_constructed relPath)
    · rintro ⟨hne, hall⟩
      have hlen : ¬ resources.length = 0 := by
        simpa [List.length_eq_zero] using hne
      have hfil : resources.filter (fun r => !disabledSchemes.contains r.scheme) = [] := by
        rw [List.filter_eq_nil_iff]
        intro a ha
        simpa using hall a ha
      have hfl : (resources.filter (fun r => !disabledSchemes.contains r.scheme)).length = 0 := by
        rw [hfil]
        rfl
      simp only [resourcesToLaunchTargets]
      rw [if_neg hlen, if_pos hfl]

/-- Witness for C4 on the empty input and on an input made of one
live-share-scheme resource. -/
theorem liveShareSentinelRule_witness :
    resourcesToLaunchTargets (fun _ => none) id [] [] 0 = []
    ∧ resourcesToLaunchTargets (fun _ => none) id [Uri.mk "vsls" "/x.cs"] [] 0
        = [vslsTarget] :=
  ⟨(liveShareSentinelRule (fun _ => none) id [] [] 0).1 rfl,
   (liveShareSentinelRule (fun _ => none) id [Uri.mk "vsls" "/x.cs"] [] 0).2.mpr
     ⟨by decide, by decide⟩⟩

/-- C10: every classifier target outside the Solution kind has its target
equal to its working directory, and every Solution-kind target has its
directory equal to the parent directory of the solution file path. -/
theorem targetDirectoryInvariant (getFolder : Uri → Option WorkspaceFolder)
    (relPath : String → String) (resources : List Uri) (folders : List WorkspaceFolder)
    (m : Int) (t : LaunchTarget)
    (ht : t ∈ resourcesToLaunchTargets getFolder relPath resources folders m) :
    (t.workspaceKind ≠ LaunchTargetKind.Solution → t.target = t.directory)
    ∧ (t.workspaceKind = LaunchTargetKind.Solution → t.directory = dirname t.target) := by
  rcases resourcesToLaunchTargets_cases getFolder relPath resources folders m with hc | hc | hc
  · rw [hc] at ht
    exact absurd ht (List.not_mem_nil t)
  · rw [hc] at ht
    have hv : t = vslsTarget := List.mem_singleton.mp ht
    subst hv
    exact ⟨fun _ => rfl, fun hk => nomatch hk⟩
  · rw [hc] at ht
    have ht2 : t ∈ allLaunchTargets relPath folders
        (buildUriMap getFolder
          (resources.filter (fun r => !disabledSchemes.contains r.scheme))) := by
      simp only [resourcesAndFolderMapToLaunchTargets] at ht
      by_cases hm : 0 < m
      · rw [if_pos hm] at ht
        exact List.take_subset _ _ ht
      · rw [if_neg hm] at ht
        exact ht
    rcases mem_allLaunchTargets relPath folders _ t ht2 with
      ⟨r, rfl⟩ | ⟨r, rfl⟩ | ⟨r, rfl⟩ | ⟨fp, rfl⟩ | ⟨fp, rfl⟩ | ⟨fp, rfl⟩ | ⟨fp, rfl⟩
    · exact ⟨fun hne => absurd rfl hne, fun _ => rfl⟩
    · exact ⟨fun _ => rfl, fun hk => nomatch hk⟩
    · exact ⟨fun _ => rfl, fun hk => nomatch hk⟩
    · exact ⟨fun _ => rfl, fun hk => nomatch hk⟩
    · exact ⟨fun _ => rfl, fun hk => nomatch hk⟩
    · exact ⟨fun _ => rfl, fun hk => nomatch hk⟩
    · exact ⟨fun _ => rfl, fun hk => nomatch hk⟩

/-- Witness for C10 at a concrete solution resource: the produced Solution
target's directory is the parent directory of its target file path. -/
theorem targetDirectoryInvariant_witness :
    (solutionTarget id (Uri.mk "file" "/w/App.sln")).directory
      = dirname (solutionTarget id (Uri.mk "file" "/w/App.sln")).target :=
  (targetDirectoryInvariant (fun _ => some (WorkspaceFolder.mk 0 "/w")) id
      [Uri.mk "file" "/w/App.sln"] [WorkspaceFolder.mk 0 "/w"] 0
      (solutionTarget id (Uri.mk "file" "/w/App.sln")) (by decide)).2 rfl

/-- The process reports a spawn lifecycle event before any error event. -/
def SpawnBeforeError (events : List ProcEvent) : Prop :=
  ∃ pre post, events = pre ++ ProcEvent.spawned :: post
    ∧ ∀ msg, ProcEvent.errored msg ∉ pre

/-- The process reports an error lifecycle event before any spawn event. -/
def ErrorBeforeSpawn (events : List ProcEvent) : Prop :=
  ∃ pre msg post, events = pre ++ ProcEvent.errored msg :: post
    ∧ ProcEvent.spawned ∉ pre

/-- The first handled event is the spawn event exactly when a spawn occurs
with no earlier error. -/
theorem find?_spawned_iff : ∀ (events : List ProcEvent),
    events.find? relevantEvent = some ProcEvent.spawned ↔ SpawnBeforeError events
  | [] => by
    constructor
    · intro h
      cases h
    · rintro ⟨pre, post, he, -⟩
      exact absurd he (by cases pre <;> simp)
  | e :: evs => by
    cases e with
    | spawned =>
      refine iff_of_true ?_ ⟨[], evs, rfl, by simp⟩
      rw [List.find?_cons_of_pos _ (by rfl)]
    | errored m =>
      refine iff_of_false ?_ ?_
      · rw [List.find?_cons_of_pos _ (by rfl)]
        intro h
        cases h
      · rintro ⟨pre, post, he, hne⟩
        cases pre with
        | nil =>
          simp only [List.nil_append, List.cons.injEq] at he
          exact nomatch he.1
        | cons p pre =>
          simp only [List.cons_append, List.cons.injEq] at he
          exact hne m (he.1 ▸ List.mem_cons_self p pre)
    | other tag =>
      rw [List.find?_cons_of_neg _ (by simp [relevantEvent])]
      rw [find?_spawned_iff evs]
      constructor
      · rintro ⟨pre, post, he, hne⟩
        exact ⟨ProcEvent.other tag :: pre, post, by rw [he, List.cons_append], by
          intro msg hmem
          rcases List.mem_cons.mp hmem with hmem | hmem
          · exact nomatch hmem
          · exact hne msg hmem⟩
      · rintro ⟨pre, post, he, hne⟩
        cases pre with
        | nil =>
          simp only [List.nil_append, List.cons.injEq] at he
          exact nomatch he.1
        | cons p pre =>
          simp only [List.cons_append, List.cons.injEq] at he
          exact ⟨pre, post, he.2, fun msg hmem => hne msg (List.mem_cons_of_mem p hmem)⟩

/-- The first handled event is an error event exactly when an error occurs
with no earlier spawn. -/
theorem find?_errored_iff : ∀ (events : List ProcEvent),
    (∃ msg, events.find? relevantEvent = some (ProcEvent.errored msg))
      ↔ ErrorBeforeSpawn events
  | [] => by
    constructor
    · rintro ⟨msg, h⟩
      cases h
    · rintro ⟨pre, msg, post, he, -⟩
      exact absurd he (by cases pre <;> simp)
  | e :: evs => by
    cases e with
    | spawned =>
      refine iff_of_false ?_ ?_
      · rintro ⟨msg, h⟩
        rw [List.find?_cons_of_pos _ (by rfl)] at h
        cases h
      · rintro ⟨pre, msg, post, he, hne⟩
        cases pre with
        | nil =>
          simp only [List.nil_append, List.cons.injEq] at he
          exact nomatch he.1
        | cons p pre =>
          simp only [List.cons_append, List.cons.injEq] at he
          exact hne (he.1 ▸ List.mem_cons_self p pre)
    | errored m =>
      refine iff_of_true ⟨m, ?_⟩ ⟨[], m, evs, rfl, by simp⟩
      rw [List.find?_cons_of_pos _ (by rfl)]
    | other tag =>
      constructor
      · rintro ⟨msg, h⟩
        rw [List.find?_cons_of_neg _ (by simp [relevantEvent])] at h
        obtain ⟨pre, msg2, post, he, hne⟩ := (find?_errored_iff evs).mp ⟨msg, h⟩
        exact ⟨ProcEvent.other tag :: pre, msg2, post, by rw [he, List.cons_append], by
          intro hmem
          rcases List.mem_cons.mp hmem with hmem | hmem
          · exact nomatch hmem
          · exact hne hmem⟩
      · rintro ⟨pre, msg, post, he, hne⟩
        rw [List.find?_cons_of_neg _ (by simp [relevantEvent])]
        cases pre with
        | nil =>
          simp only [List.nil_append, List.cons.injEq] at he
          exact nomatch he.1
        | cons p pre =>
          simp only [List.cons_append, List.cons.injEq] at he
          exact (find?_errored_iff evs).mpr
            ⟨pre, msg, post, he.2, fun hmem => hne (List.mem_cons_of_mem p hmem)⟩

/-- C6: the launch promise resolves exactly when the inner launch
succeeded and the process reports spawn before any error; it rejects
exactly on an inner launch failure (resolver failure or spawn-time
failure) or, after a successful launch, on an error event preceding any
spawn; the two outcomes never both occur; and it stays unsettled exactly
when the launch succeeded and no handled lifecycle event ever fires. -/
theorem launchPromiseRule (launchResult : Except String IntermediateLaunchResult)
    (events : List ProcEvent) :
    ((∃ res, launchOmniSharp launchResult events = some (Except.ok res))
        ↔ ((∃ res, launchResult = Except.ok res) ∧ SpawnBeforeError events))
    ∧ ((∃ e, launchOmniSharp launchResult events = some (Except.error e))
        ↔ ((∃ e, launchResult = Except.error e)
            ∨ ((∃ res, launchResult = Except.ok res) ∧ ErrorBeforeSpawn events)))
    ∧ ¬ ((∃ res, launchOmniSharp launchResult events = some (Except.ok res))
          ∧ (∃ e, launchOmniSharp launchResult events = some (Except.error e)))
    ∧ (launchOmniSharp launchResult events = none
        ↔ ((∃ res, launchResult = Except.ok res)
            ∧ ∀ e ∈ events, relevantEvent e = false)) := by
  rcases launchResult with e0 | res0
  · refine ⟨?_, ?_, ?_, ?_⟩
    · simp [launchOmniSharp]
    · simp [launchOmniSharp]
    · rintro ⟨⟨res, hres⟩, -⟩
      simp [launchOmniSharp] at hres
    · simp [launchOmniSharp]
  · cases hf : events.find? relevantEvent with
    | none =>
      have h1 : ¬ SpawnBeforeError events := by
        intro hs
        have := (find?_spawned_iff events).mpr hs
        rw [this] at hf
        cases hf
      have h2 : ¬ ErrorBeforeSpawn events := by
        intro hs
        obtain ⟨m, hm⟩ := (find?_errored_iff events).mpr hs
        rw [hm] at hf
        cases hf
      have h3 : ∀ e ∈ events, relevantEvent e = false := by
        intro e he
        have := List.find?_eq_none.mp hf e he
        simpa using this
      refine ⟨?_, ?_, ?_, ?_⟩
      · simp only [launchOmniSharp, hf]
        constructor
        · rintro ⟨res, hres⟩
          cases hres
        · rintro ⟨-, hs⟩
          exact absurd hs h1
      · simp only [launchOmniSharp, hf]
        constructor
        · rintro ⟨e, he⟩
          cases he
        · rintro (⟨e, he⟩ | ⟨-, hs⟩)
          · cases he
          · exact absurd hs h2
      · rintro ⟨⟨res, hres⟩, -⟩
        simp only [launchOmniSharp, hf] at hres
        cases hres
      · simp only [launchOmniSharp, hf]
        exact iff_of_true (by trivial) ⟨⟨res0, rfl⟩, h3⟩
    | some ev =>
      have hrel : relevantEvent ev = true := List.find?_some hf
      have hmem : ev ∈ events := List.mem_of_find?_eq_some hf
      cases ev with
      | spawned =>
        have h1 : SpawnBeforeError events := (find?_spawned_iff events).mp hf
        have h2 : ¬ ErrorBeforeSpawn events := by
          intro hs
          obtain ⟨m, hm⟩ := (find?_errored_iff events).mpr hs
          rw [hf] at hm
          cases hm
        refine ⟨?_, ?_, ?_, ?_⟩
        · simp only [launchOmniSharp, hf]
          exact iff_of_true ⟨res0, rfl⟩ ⟨⟨res0, rfl⟩, h1⟩
        · simp only [launchOmniSharp, hf]
          constructor
          · rintro ⟨e, he⟩
            cases he
          · rintro (⟨e, he⟩ | ⟨-, hs⟩)
            · cases he
            · exact absurd hs h2
        · rintro ⟨-, ⟨e, he⟩⟩
          simp only [launchOmniSharp, hf] at he
          cases he
        · simp only [launchOmniSharp, hf]
          refine iff_of_false (by intro h; cases h) ?_
          rintro ⟨-, hall⟩
          have := hall _ hmem
          simp [relevantEvent] at this
      | errored m =>
        have h1 : ¬ SpawnBeforeError events := by
          intro hs
          have := (find?_spawned_iff events).mpr hs
          rw [hf] at this
          cases this
        have h2 : ErrorBeforeSpawn events := (find?_errored_iff events).mp ⟨m, hf⟩
        refine ⟨?_, ?_, ?_, ?_⟩
        · simp only [launchOmniSharp, hf]
          constructor
          · rintro ⟨res, hres⟩
            cases hres
          · rintro ⟨-, hs⟩
            exact absurd hs h1
        · simp only [launchOmniSharp, hf]
          exact iff_of_true ⟨m, rfl⟩ (Or.inr ⟨⟨res0, rfl⟩, h2⟩)
        · rintro ⟨⟨res, hres⟩, -⟩
          simp only [launchOmniSharp, hf] at hres
          cases hres
        · simp only [launchOmniSharp, hf]
          refine iff_of_false (by intro h; cases h) ?_
          rintro ⟨-, hall⟩
          have := hall _ hmem
          simp [relevantEvent] at this
      | other tag =>
        exact absurd hrel (by simp [relevantEvent])
